import Mathlib

/-!
# Trick-or-treat simulation (`thread.c`)

A shallow embedding of the candy-collecting threads of `thread.c`:
`distance`, the body of the `getTreat` loop (house selection, travel time,
the locked candy transfer), the locked refill of `refillCandy`, the
try-lock stop check `quit`, and the reporting loop of `main`.

Conventions.
* `unsigned int` is a natural number below `UINT_MOD = 2^32`; every
  arithmetic operation of the source is reduced modulo `UINT_MOD`.
* `int` values produced by `abs` are handled in two's complement: the
  conversion of an unsigned value `u` to `int` is `u` below `2^31` and
  `u - 2^32` from there on.
* The loop counter `int i` of `main` has no successor at `INT_MAX`.
* The array `Houses[HOUSES]` is a list of houses; `houseAt` reads a cell.
* A critical section protected by a house lock is one atomic function.
-/

namespace PThreads

/-! ## Machine arithmetic -/

/-- The constant `HOUSES` of the source (`#define HOUSES 10`). -/
def HOUSES : Nat := 10

/-- Number of values of an `unsigned int` (32 bits). -/
def UINT_MOD : Nat := 4294967296

/-- First value above `INT_MAX` (`2^31`). -/
def INT_LIM : Nat := 2147483648

/-- Addition of two `unsigned int` values. -/
def uadd (a b : Nat) : Nat := (a + b) % UINT_MOD

/-- Subtraction of two `unsigned int` values (both below `UINT_MOD`). -/
def usub (a b : Nat) : Nat := (a + UINT_MOD - b) % UINT_MOD

/-- Multiplication of two `unsigned int` values. -/
def umul (a b : Nat) : Nat := (a * b) % UINT_MOD

/-- The call `abs(u)` on an `unsigned int` argument: `u` is converted to
`int` (two's complement), `abs` is taken, and the result is read back as an
unsigned value. For `u = 2^31` (`abs(INT_MIN)`, undefined in C) the value is
`2^31`. -/
def absInt (u : Nat) : Nat := if u < INT_LIM then u else UINT_MOD - u

/-- The function `distance` (lines 80-84):
`return abs(x1 - x2) + abs(y1 - y2);` on `unsigned int` arguments. The sum
of the two `int` values is converted to the `unsigned int` result; a sum
above `INT_MAX` (undefined in C) is given its two's complement value. The
statements below that relate `distance` to the Manhattan distance stay in
the range where every step is defined. -/
def distance (x1 x2 y1 y2 : Nat) : Nat :=
  uadd (absInt (usub x1 x2)) (absInt (usub y1 y2))

/-- The Manhattan distance `|x1 - x2| + |y1 - y2|` of the points `(x1, y1)`
and `(x2, y2)`, over the integers; this is the mathematical quantity the
source function `distance` is compared with. -/
def manhattan (x1 x2 y1 y2 : Nat) : Nat :=
  ((x1 : Int) - (x2 : Int)).natAbs + ((y1 : Int) - (y2 : Int)).natAbs

/-! ## Data model -/

/-- The record `struct House` without its lock. -/
structure House where
  cordX : Nat
  cordY : Nat
  candy : Nat
deriving DecidableEq, Repr

/-- The record `struct Children`. -/
structure Children where
  uniqueId : Nat
  startHouse : Nat
  size : Nat
  time : Nat
  currentHouse : Nat
  destinationHouse : Nat
  candy : Nat
deriving DecidableEq, Repr

/-- Read of the cell `Houses[i]`. -/
def houseAt (hs : List House) (i : Nat) : House := hs.getD i ⟨0, 0, 0⟩

/-- The distance computed at lines 110 and 126 between the current house of
the group and house `i`. -/
def distTo (hs : List House) (c : Children) (i : Nat) : Nat :=
  distance (houseAt hs c.currentHouse).cordX (houseAt hs i).cordX
    (houseAt hs c.currentHouse).cordY (houseAt hs i).cordY

/-- The Manhattan distance between the current house of the group and
house `i`. -/
def manhattanTo (hs : List House) (c : Children) (i : Nat) : Nat :=
  manhattan (houseAt hs c.currentHouse).cordX (houseAt hs i).cordX
    (houseAt hs c.currentHouse).cordY (houseAt hs i).cordY

/-! ## The loop body of `getTreat` -/

/-- One iteration of the first `for` loop (lines 107-118). The state is the
pair `(chosenHouse, minimumDistance)`. -/
def firstPassStep (hs : List House) (c : Children) (st : Nat × Nat) (i : Nat) : Nat × Nat :=
  if c.currentHouse ≠ i ∧ c.startHouse ≠ i then
    let tmpDistance := distTo hs c i
    let tmpCandy := (houseAt hs i).candy
    if tmpDistance < st.2 ∧ c.size ≤ tmpCandy then (i, tmpDistance) else st
  else st

/-- The first `for` loop (lines 103-118), started with
`minimumDistance = 20` and `chosenHouse = children->startHouse`. -/
def firstPass (hs : List House) (c : Children) : Nat × Nat :=
  (List.range HOUSES).foldl (firstPassStep hs c) (c.startHouse, 20)

/-- One iteration of the second `for` loop (lines 123-132). -/
def fallbackStep (hs : List House) (c : Children) (st : Nat × Nat) (i : Nat) : Nat × Nat :=
  if c.currentHouse ≠ i ∧ c.startHouse ≠ i then
    let tmpDistance := distTo hs c i
    if tmpDistance ≤ st.2 then (i, tmpDistance) else st
  else st

/-- The second `for` loop (lines 122-132), entered with the current
`chosenHouse` and `minimumDistance = 20`. -/
def fallbackPass (hs : List House) (c : Children) (chosenHouse : Nat) : Nat × Nat :=
  (List.range HOUSES).foldl (fallbackStep hs c) (chosenHouse, 20)

/-- Lines 103-133: the pair `(chosenHouse, minimumDistance)` at line 134. -/
def selectHouse (hs : List House) (c : Children) : Nat × Nat :=
  let r := firstPass hs c
  if r.1 = c.startHouse then fallbackPass hs c r.1 else r

/-- Lines 103-135: the selection, stored in `destinationHouse` and `time`. -/
def selectStep (hs : List House) (c : Children) : Children :=
  let r := selectHouse hs c
  { c with destinationHouse := r.1, time := umul r.2 250 }

/-- Lines 140-153: the transfer of candy under the lock of the destination
house, followed by `children->currentHouse = chosenHouse`. -/
def collectStep (hs : List House) (c : Children) (chosenHouse : Nat) : List House × Children :=
  let h := houseAt hs c.destinationHouse
  if c.size > h.candy then
    (hs.set c.destinationHouse { h with candy := 0 },
      { c with candy := uadd c.candy h.candy, currentHouse := chosenHouse })
  else
    (hs.set c.destinationHouse { h with candy := usub h.candy c.size },
      { c with candy := uadd c.candy c.size, currentHouse := chosenHouse })

/-- One iteration of the `while` loop of `getTreat` (lines 103-153). The
selection reads the houses as `seen`; after the sleep the transfer acts on
the houses `hs` as they are when the lock is taken. -/
def loopBody (seen hs : List House) (c : Children) : List House × Children :=
  collectStep hs (selectStep seen c) (selectHouse seen c).1

/-- Lines 98-99: the initialisation done by `getTreat` before its loop. -/
def getTreatInit (c : Children) : Children :=
  { c with currentHouse := c.startHouse, candy := 0 }

/-- Lines 175-178 of `refillCandy`: the locked refill of one house. -/
def refillStep (hs : List House) (houseNumber refill : Nat) : List House :=
  let h := houseAt hs houseNumber
  hs.set houseNumber { h with candy := uadd h.candy refill }

/-- The amount added to `children->candy` at line 143 or 147. -/
def taken (hs : List House) (c : Children) : Nat :=
  if c.size > (houseAt hs c.destinationHouse).candy then
    (houseAt hs c.destinationHouse).candy
  else c.size

/-- The loop of `getTreat` run for as many iterations as `views` has
entries; each entry gives the houses as read by the selection and the
houses as found when the lock is taken (other threads change the candy in
between). Only the record of the group is followed. -/
def agentRun (c : Children) (views : List (List House × List House)) : Children :=
  views.foldl (fun st v => (loopBody v.1 v.2 st).2) c

/-! ## Serialized takes on one house -/

/-- Groups `cs` take from house `d` one after the other, each inside the
lock of that house (lines 140-151). The result is the final houses and the
amounts taken, in order. -/
def takesOn (d : Nat) : List House → List Children → List House × List Nat
  | hs, [] => (hs, [])
  | hs, c :: cs =>
    let c1 : Children := { c with destinationHouse := d }
    let r := takesOn d (collectStep hs c1 d).1 cs
    (r.1, taken hs c1 :: r.2)

/-! ## Interleavings of locked steps -/

/-- The shared houses and the records of all groups. -/
structure Sim where
  houses : List House
  agents : List Children
deriving DecidableEq, Repr

/-- A locked step of one thread: group `agent` runs one loop body whose
selection read the houses as `seen`, or the neighbourhood thread applies
one line `houseNumber refill` of its file. -/
inductive Action where
  | collect (agent : Nat) (seen : List House)
  | refill (houseNumber : Nat) (refill : Nat)
deriving DecidableEq, Repr

/-- Effect of one action on the simulation state. -/
def Sim.step (s : Sim) : Action → Sim
  | Action.collect a seen =>
    match s.agents[a]? with
    | none => s
    | some c =>
      let r := loopBody seen s.houses c
      ⟨r.1, s.agents.set a r.2⟩
  | Action.refill n amt => ⟨refillStep s.houses n amt, s.agents⟩

/-- Effect of a sequence of actions. -/
def Sim.run (s : Sim) (acts : List Action) : Sim := acts.foldl Sim.step s

/-- Sum of `Houses[k].candy` over all houses. -/
def houseTotal (hs : List House) : Nat := (hs.map House.candy).sum

/-- Sum of `children[j].candy` over all groups (the `totalCandy` of the
report). -/
def agentTotal (cs : List Children) : Nat := (cs.map Children.candy).sum

/-- Sum of the refill amounts in a sequence of actions. -/
def refillTotal : List Action → Nat
  | [] => 0
  | Action.collect _ _ :: rest => refillTotal rest
  | Action.refill _ amt :: rest => amt + refillTotal rest

/-- An action names an existing group, respectively an existing house. -/
def Action.inRange (nAgents : Nat) : Action → Prop
  | Action.collect a _ => a < nAgents
  | Action.refill n _ => n < HOUSES

/-! ## The stop check `quit` -/

/-- Owner of the global mutex `lock`. -/
inductive Holder where
  | coordinator
  | group (i : Nat)
deriving DecidableEq, Repr

/-- Position of a group thread in `while(!quit(&lock)) { ... }`. -/
inductive Pc where
  /-- About to call `pthread_mutex_trylock` (line 62) for the loop test. -/
  | loopHead
  /-- The try-lock returned 0: the thread holds `lock` and is about to
  unlock it (line 64) and return 1. -/
  | holdingLock
  /-- The try-lock returned `EBUSY`, `quit` returned 0: the thread is about
  to run the loop body (lines 103-153). -/
  | inBody
  /-- The loop has ended (`return NULL`). -/
  | exited
deriving DecidableEq, Repr

/-- A group thread with two counters: `lateEntries` counts the loop tests
made after the coordinator released `lock` that let the thread into the
body, `lateCycles` counts the loop bodies completed after that release. -/
structure Thread where
  pc : Pc
  lateEntries : Nat
  lateCycles : Nat
deriving DecidableEq, Repr

/-- The global mutex, whether the coordinator has executed line 300, and the
group threads. -/
structure World where
  lock : Option Holder
  stopped : Bool
  threads : List Thread
deriving DecidableEq, Repr

/-- The scheduler picks the coordinator (line 300) or one group thread. -/
inductive Tick where
  | coordinator
  | group (i : Nat)
deriving DecidableEq, Repr

/-- One atomic action of group thread `i`. -/
def threadStep (w : World) (i : Nat) (t : Thread) : World :=
  match t.pc with
  | Pc.loopHead =>
    match w.lock with
    | none =>
      let t1 : Thread := { t with pc := Pc.holdingLock }
      { w with lock := some (Holder.group i), threads := w.threads.set i t1 }
    | some _ =>
      let late := if w.stopped then t.lateEntries + 1 else t.lateEntries
      let t1 : Thread := { t with pc := Pc.inBody, lateEntries := late }
      { w with threads := w.threads.set i t1 }
  | Pc.holdingLock =>
    let t1 : Thread := { t with pc := Pc.exited }
    { w with lock := none, threads := w.threads.set i t1 }
  | Pc.inBody =>
    let late := if w.stopped then t.lateCycles + 1 else t.lateCycles
    let t1 : Thread := { t with pc := Pc.loopHead, lateCycles := late }
    { w with threads := w.threads.set i t1 }
  | Pc.exited => w

/-- One scheduling step. The coordinator step is line 300,
`pthread_mutex_unlock(&lock)`. -/
def World.step (w : World) : Tick → World
  | Tick.coordinator =>
    if w.lock = some Holder.coordinator then { w with lock := none, stopped := true } else w
  | Tick.group i =>
    match w.threads[i]? with
    | none => w
    | some t => threadStep w i t

/-- A schedule run from a world. -/
def World.run (w : World) (sched : List Tick) : World := sched.foldl World.step w

/-- The world after lines 239-256: `lock` is held by the coordinator and
`n` group threads are at their first loop test. -/
def World.start (n : Nat) : World :=
  ⟨some Holder.coordinator, false, List.replicate n ⟨Pc.loopHead, 0, 0⟩⟩

/-! ## The reporting loop of `main` -/

/-- What the coordinator does that can be observed. -/
inductive Event where
  /-- The call `sleep(1)` of line 275. It returns the unslept seconds, 0 or
  1, so the test `sleep(1) == -1` of that line never holds. -/
  | sleep
  /-- The periodic report of lines 283-295, headed `After i seconds`. -/
  | snapshot (i : Int)
  /-- Line 300, `pthread_mutex_unlock(&lock)`. -/
  | stop
  /-- The report of lines 307-321, headed `After time seconds`. -/
  | final (time : Int)
deriving DecidableEq, Repr

/-- The increment `i++` on an `int`: `none` when `i + 1` exceeds `INT_MAX`
(signed overflow, which C leaves undefined). -/
def intSucc (i : Int) : Option Int :=
  if i + 1 < 2147483648 then some (i + 1) else none

/-- The loop `for (int i = 0; i <= time; i++)` of lines 270-297 from a
given value of `i`; `none` when the fuel runs out before the loop ends or
the increment overflows. -/
def reportLoop (time : Int) : Nat → Int → Option (List Event)
  | 0, _ => none
  | fuel + 1, i =>
    if i ≤ time then
      let slept := if i ≠ 0 then [Event.sleep] else []
      let shown := if i ≠ time then [Event.snapshot i] else []
      (intSucc i).bind (fun j =>
        (reportLoop time fuel j).map (fun rest => slept ++ shown ++ rest))
    else some []

/-- Lines 270-321 of `main`: the loop, the unlock and the final report. -/
def mainReport (time : Int) (fuel : Nat) : Option (List Event) :=
  (reportLoop time fuel 0).map (fun evs => evs ++ [Event.stop, Event.final time])

/-! ## Specification-side predicates and example data -/

/-- Every coordinate stored in `hs` is below `b`. -/
def coordsBelow (hs : List House) (b : Nat) : Prop :=
  ∀ h ∈ hs, h.cordX < b ∧ h.cordY < b

/-- A group with start house 0, standing at house 0, of the given size. -/
def groupAtZero (size : Nat) : Children := ⟨0, 0, size, 0, 0, 0, 0⟩

/-- Ten houses: house 0 at (0,0) with 10, house 1 at (1,0) with 3, house 2
at (2,0) with 20, the others at (5,5) and empty. -/
def lineHouses : List House :=
  [⟨0, 0, 10⟩, ⟨1, 0, 3⟩, ⟨2, 0, 20⟩, ⟨5, 5, 0⟩, ⟨5, 5, 0⟩,
   ⟨5, 5, 0⟩, ⟨5, 5, 0⟩, ⟨5, 5, 0⟩, ⟨5, 5, 0⟩, ⟨5, 5, 0⟩]

/-- Ten houses: house 0 at (0,0), every other house at (30,0) with 20. -/
def farHouses : List House :=
  [⟨0, 0, 10⟩, ⟨30, 0, 20⟩, ⟨30, 0, 20⟩, ⟨30, 0, 20⟩, ⟨30, 0, 20⟩,
   ⟨30, 0, 20⟩, ⟨30, 0, 20⟩, ⟨30, 0, 20⟩, ⟨30, 0, 20⟩, ⟨30, 0, 20⟩]

/-- Ten houses: house 0 at (0,0), houses 1 and 2 at distance 1 from it, the
others at (5,5); only house 0 holds candy. -/
def tieHouses : List House :=
  [⟨0, 0, 10⟩, ⟨1, 0, 0⟩, ⟨0, 1, 0⟩, ⟨5, 5, 0⟩, ⟨5, 5, 0⟩,
   ⟨5, 5, 0⟩, ⟨5, 5, 0⟩, ⟨5, 5, 0⟩, ⟨5, 5, 0⟩, ⟨5, 5, 0⟩]

/-- Ten houses: house 0 at (0,0) and empty, houses 1 and 2 at (1,0) and
(2,0) with 4294967295 candy each, the others at (5,5) and empty. -/
def richHouses : List House :=
  [⟨0, 0, 0⟩, ⟨1, 0, 4294967295⟩, ⟨2, 0, 4294967295⟩, ⟨5, 5, 0⟩, ⟨5, 5, 0⟩,
   ⟨5, 5, 0⟩, ⟨5, 5, 0⟩, ⟨5, 5, 0⟩, ⟨5, 5, 0⟩, ⟨5, 5, 0⟩]

/-- Ten houses: house 0 at (0,0) with 10, house 1 at (4294967295,0) with
20, house 2 at (2,0) with 20, the others at (5,5) and empty. -/
def wrapHouses : List House :=
  [⟨0, 0, 10⟩, ⟨4294967295, 0, 20⟩, ⟨2, 0, 20⟩, ⟨5, 5, 0⟩, ⟨5, 5, 0⟩,
   ⟨5, 5, 0⟩, ⟨5, 5, 0⟩, ⟨5, 5, 0⟩, ⟨5, 5, 0⟩, ⟨5, 5, 0⟩]

/-- The state invariant carried along a run: ten houses, start houses in
range, and the candy in houses and groups adds up to `total`. -/
def SimInv (s : Sim) (total : Nat) : Prop :=
  s.houses.length = HOUSES ∧ (∀ c ∈ s.agents, c.startHouse < HOUSES) ∧
    houseTotal s.houses + agentTotal s.agents = total

instance (n : Nat) : DecidablePred (Action.inRange n) := fun a => by
  cases a <;> unfold Action.inRange <;> infer_instance

/-- Two groups of sizes 5 and 8 on `lineHouses`. -/
def twoGroups : Sim := ⟨lineHouses, [groupAtZero 5, groupAtZero 8]⟩

/-- One group of size 4294967295 on `richHouses`. -/
def greedyGroup : Sim := ⟨richHouses, [groupAtZero 4294967295]⟩

/-- A schedule of two group threads: thread 1 enters the loop body, the
coordinator unlocks, thread 1 finishes its body, thread 0 takes the lock in
its `quit`, thread 1 runs `quit` meanwhile and gets `EBUSY`, thread 0 unlocks
and exits, thread 1 runs one more body and then leaves through `quit`. -/
def raceSchedule : List Tick :=
  [Tick.group 1, Tick.coordinator, Tick.group 1, Tick.group 0, Tick.group 1,
   Tick.group 0, Tick.group 1, Tick.group 1, Tick.group 1]

/-- The periodic part of the trace as the specification words it: `k`
snapshots labelled `i`, `i + 1`, ..., in increasing order, each followed by
one 1-second sleep (so every snapshot but the first comes right after exactly
one sleep, and the first comes after none). -/
def periodicFrom (i : Nat) : Nat → List Event
  | 0 => []
  | k + 1 => Event.snapshot (i : Int) :: Event.sleep :: periodicFrom (i + 1) k

/-- The labels of the reports of a trace, periodic and final, in order. -/
def reportLabels : List Event → List Int
  | [] => []
  | Event.snapshot i :: rest => i :: reportLabels rest
  | Event.final t :: rest => t :: reportLabels rest
  | Event.sleep :: rest => reportLabels rest
  | Event.stop :: rest => reportLabels rest

/-! ## Arithmetic facts -/

theorem distance_eq_manhattan (x1 x2 y1 y2 : Nat)
    (hx1 : x1 < UINT_MOD) (hx2 : x2 < UINT_MOD) (hy1 : y1 < UINT_MOD) (hy2 : y2 < UINT_MOD)
    (h : manhattan x1 x2 y1 y2 < INT_LIM) :
    distance x1 x2 y1 y2 = manhattan x1 x2 y1 y2 := by
  simp only [distance, manhattan, uadd, usub, absInt, UINT_MOD, INT_LIM] at *
  split_ifs <;> omega

theorem houseAt_coords (hs : List House) (b : Nat) (hb : 0 < b) (h : coordsBelow hs b) (i : Nat) :
    (houseAt hs i).cordX < b ∧ (houseAt hs i).cordY < b := by
  unfold houseAt
  by_cases hi : i < hs.length
  · rw [List.getD_eq_getElem hs _ hi]
    exact h _ (List.getElem_mem hi)
  · rw [List.getD_eq_default hs _ (by omega)]
    exact ⟨hb, hb⟩

theorem distTo_eq_manhattanTo (hs : List House) (c : Children)
    (h : coordsBelow hs 1073741824) (i : Nat) :
    distTo hs c i = manhattanTo hs c i := by
  have h1 := houseAt_coords hs 1073741824 (by norm_num) h c.currentHouse
  have h2 := houseAt_coords hs 1073741824 (by norm_num) h i
  unfold distTo manhattanTo
  apply distance_eq_manhattan
  · simp only [UINT_MOD]; omega
  · simp only [UINT_MOD]; omega
  · simp only [UINT_MOD]; omega
  · simp only [UINT_MOD]; omega
  · simp only [manhattan, INT_LIM]; omega

/-! ## Loop invariants of the two selection loops -/

/-- Invariant of the first loop after the indices below `n`. -/
theorem firstPass_inv (hs : List House) (c : Children) (n : Nat) :
    let st := (List.range n).foldl (firstPassStep hs c) (c.startHouse, 20)
    (st = (c.startHouse, 20) ∧
      ∀ i, i < n → c.currentHouse ≠ i → c.startHouse ≠ i →
        c.size ≤ (houseAt hs i).candy → 20 ≤ distTo hs c i) ∨
    (st.1 < n ∧ c.currentHouse ≠ st.1 ∧ c.startHouse ≠ st.1 ∧
      c.size ≤ (houseAt hs st.1).candy ∧ st.2 = distTo hs c st.1 ∧ st.2 < 20 ∧
      ∀ i, i < n → c.currentHouse ≠ i → c.startHouse ≠ i →
        c.size ≤ (houseAt hs i).candy →
        st.2 < distTo hs c i ∨ (st.2 = distTo hs c i ∧ st.1 ≤ i)) := by
  induction n with
  | zero => left; simp
  | succ n ih =>
    rw [List.range_succ, List.foldl_append]
    simp only [List.foldl_cons, List.foldl_nil]
    generalize (List.range n).foldl (firstPassStep hs c) (c.startHouse, 20) = st at ih ⊢
    obtain ⟨ch, md⟩ := st
    simp only at ih
    simp only [firstPassStep]
    by_cases he : c.currentHouse ≠ n ∧ c.startHouse ≠ n
    · by_cases hb : distTo hs c n < md ∧ c.size ≤ (houseAt hs n).candy
      · rw [if_pos he, if_pos hb]
        right
        refine ⟨by omega, he.1, he.2, hb.2, rfl, ?_, ?_⟩
        · rcases ih with ⟨h0, _⟩ | ⟨_, _, _, _, _, hlt, _⟩
          · simp only [Prod.mk.injEq] at h0; omega
          · omega
        · intro i hi h1 h2 h3
          by_cases hin : i = n
          · subst hin; right; exact ⟨rfl, le_refl _⟩
          · have hi2 : i < n := by omega
            rcases ih with ⟨h0, hall⟩ | ⟨_, _, _, _, _, _, hall⟩
            · simp only [Prod.mk.injEq] at h0
              have := hall i hi2 h1 h2 h3
              left; omega
            · rcases hall i hi2 h1 h2 h3 with h | ⟨h, _⟩
              · left; omega
              · left; omega
      · rw [if_pos he, if_neg hb]
        rcases ih with ⟨h0, hall⟩ | ⟨hlt, e1, e2, hs1, hk, hmd, hall⟩
        · left
          refine ⟨h0, ?_⟩
          intro i hi h1 h2 h3
          by_cases hin : i = n
          · subst hin
            simp only [Prod.mk.injEq] at h0
            have : ¬ distTo hs c i < md := fun hh => hb ⟨hh, h3⟩
            omega
          · exact hall i (by omega) h1 h2 h3
        · right
          refine ⟨by omega, e1, e2, hs1, hk, hmd, ?_⟩
          intro i hi h1 h2 h3
          by_cases hin : i = n
          · subst hin
            have : ¬ distTo hs c i < md := fun hh => hb ⟨hh, h3⟩
            simp only at hlt ⊢
            rcases Nat.lt_or_ge md (distTo hs c i) with h | h
            · left; exact h
            · right; exact ⟨by omega, by omega⟩
          · exact hall i (by omega) h1 h2 h3
    · rw [if_neg he]
      rcases ih with ⟨h0, hall⟩ | ⟨hlt, e1, e2, hs1, hk, hmd, hall⟩
      · left
        refine ⟨h0, ?_⟩
        intro i hi h1 h2 h3
        by_cases hin : i = n
        · subst hin; exact absurd ⟨h1, h2⟩ he
        · exact hall i (by omega) h1 h2 h3
      · right
        refine ⟨by omega, e1, e2, hs1, hk, hmd, ?_⟩
        intro i hi h1 h2 h3
        by_cases hin : i = n
        · subst hin; exact absurd ⟨h1, h2⟩ he
        · exact hall i (by omega) h1 h2 h3

/-- Invariant of the second loop after the indices below `n`. -/
theorem fallbackPass_inv (hs : List House) (c : Children) (ch0 n : Nat) :
    let st := (List.range n).foldl (fallbackStep hs c) (ch0, 20)
    (st = (ch0, 20) ∧
      ∀ i, i < n → c.currentHouse ≠ i → c.startHouse ≠ i → 20 < distTo hs c i) ∨
    (st.1 < n ∧ c.currentHouse ≠ st.1 ∧ c.startHouse ≠ st.1 ∧
      st.2 = distTo hs c st.1 ∧ st.2 ≤ 20 ∧
      ∀ i, i < n → c.currentHouse ≠ i → c.startHouse ≠ i →
        st.2 < distTo hs c i ∨ (st.2 = distTo hs c i ∧ i ≤ st.1)) := by
  induction n with
  | zero => left; simp
  | succ n ih =>
    rw [List.range_succ, List.foldl_append]
    simp only [List.foldl_cons, List.foldl_nil]
    generalize (List.range n).foldl (fallbackStep hs c) (ch0, 20) = st at ih ⊢
    obtain ⟨ch, md⟩ := st
    simp only at ih
    simp only [fallbackStep]
    by_cases he : c.currentHouse ≠ n ∧ c.startHouse ≠ n
    · by_cases hb : distTo hs c n ≤ md
      · rw [if_pos he, if_pos hb]
        right
        refine ⟨by omega, he.1, he.2, rfl, ?_, ?_⟩
        · rcases ih with ⟨h0, _⟩ | ⟨_, _, _, _, hle, _⟩
          · simp only [Prod.mk.injEq] at h0; omega
          · omega
        · intro i hi h1 h2
          by_cases hin : i = n
          · subst hin; right; exact ⟨rfl, le_refl _⟩
          · have hi2 : i < n := by omega
            rcases ih with ⟨h0, hall⟩ | ⟨_, _, _, _, _, hall⟩
            · simp only [Prod.mk.injEq] at h0
              have := hall i hi2 h1 h2
              left; omega
            · rcases hall i hi2 h1 h2 with h | ⟨h, _⟩
              · left; omega
              · simp only at h ⊢
                rcases Nat.lt_or_ge (distTo hs c n) (distTo hs c i) with h4 | h4
                · left; exact h4
                · right; exact ⟨by omega, by omega⟩
      · rw [if_pos he, if_neg hb]
        rcases ih with ⟨h0, hall⟩ | ⟨hlt, e1, e2, hk, hmd, hall⟩
        · left
          refine ⟨h0, ?_⟩
          intro i hi h1 h2
          by_cases hin : i = n
          · subst hin
            simp only [Prod.mk.injEq] at h0
            omega
          · exact hall i (by omega) h1 h2
        · right
          refine ⟨by omega, e1, e2, hk, hmd, ?_⟩
          intro i hi h1 h2
          by_cases hin : i = n
          · subst hin; left; simp only; omega
          · exact hall i (by omega) h1 h2
    · rw [if_neg he]
      rcases ih with ⟨h0, hall⟩ | ⟨hlt, e1, e2, hk, hmd, hall⟩
      · left
        refine ⟨h0, ?_⟩
        intro i hi h1 h2
        by_cases hin : i = n
        · subst hin; exact absurd ⟨h1, h2⟩ he
        · exact hall i (by omega) h1 h2
      · right
        refine ⟨by omega, e1, e2, hk, hmd, ?_⟩
        intro i hi h1 h2
        by_cases hin : i = n
        · subst hin; exact absurd ⟨h1, h2⟩ he
        · exact hall i (by omega) h1 h2

/-- The three outcomes of lines 103-133: a sufficient house nearer than 20
was found by the first loop; or none was and the second loop found a house
within 20; or no house is within 20 and the start house is kept. -/
theorem selectHouse_cases (hs : List House) (c : Children) :
    (((selectHouse hs c).1 < HOUSES ∧ c.currentHouse ≠ (selectHouse hs c).1 ∧
        c.startHouse ≠ (selectHouse hs c).1 ∧
        c.size ≤ (houseAt hs (selectHouse hs c).1).candy ∧
        (selectHouse hs c).2 = distTo hs c (selectHouse hs c).1 ∧ (selectHouse hs c).2 < 20 ∧
        ∀ i, i < HOUSES → c.currentHouse ≠ i → c.startHouse ≠ i →
          c.size ≤ (houseAt hs i).candy →
          (selectHouse hs c).2 < distTo hs c i ∨
            ((selectHouse hs c).2 = distTo hs c i ∧ (selectHouse hs c).1 ≤ i)) ∨
      ((∀ i, i < HOUSES → c.currentHouse ≠ i → c.startHouse ≠ i →
          c.size ≤ (houseAt hs i).candy → 20 ≤ distTo hs c i) ∧
        (selectHouse hs c).1 < HOUSES ∧ c.currentHouse ≠ (selectHouse hs c).1 ∧
        c.startHouse ≠ (selectHouse hs c).1 ∧
        (selectHouse hs c).2 = distTo hs c (selectHouse hs c).1 ∧ (selectHouse hs c).2 ≤ 20 ∧
        ∀ i, i < HOUSES → c.currentHouse ≠ i → c.startHouse ≠ i →
          (selectHouse hs c).2 < distTo hs c i ∨
            ((selectHouse hs c).2 = distTo hs c i ∧ i ≤ (selectHouse hs c).1))) ∨
    ((∀ i, i < HOUSES → c.currentHouse ≠ i → c.startHouse ≠ i → 20 < distTo hs c i) ∧
      selectHouse hs c = (c.startHouse, 20)) := by
  have h1 := firstPass_inv hs c HOUSES
  simp only at h1
  rcases h1 with ⟨h0, hall⟩ | ⟨hlt, e1, e2, hsuf, hk, hmd, hall⟩
  · have hsel : selectHouse hs c = fallbackPass hs c c.startHouse := by
      simp only [selectHouse, firstPass, h0, if_true]
    have h2 := fallbackPass_inv hs c c.startHouse HOUSES
    simp only at h2
    rw [hsel]
    unfold fallbackPass
    rcases h2 with ⟨g0, gall⟩ | ⟨glt, g1, g2, gk, gmd, gall⟩
    · right; exact ⟨gall, g0⟩
    · left; right; exact ⟨hall, glt, g1, g2, gk, gmd, gall⟩
  · have hsel : selectHouse hs c = firstPass hs c := by
      simp only [selectHouse, firstPass]
      rw [if_neg]
      exact fun h => e2 h.symm
    rw [hsel]
    unfold firstPass
    left; left; exact ⟨hlt, e1, e2, hsuf, hk, hmd, hall⟩

theorem selectStep_destinationHouse (hs : List House) (c : Children) :
    (selectStep hs c).destinationHouse = (selectHouse hs c).1 := rfl

theorem selectStep_time (hs : List House) (c : Children) :
    (selectStep hs c).time = umul (selectHouse hs c).2 250 := rfl

theorem selectHouse_lt (hs : List House) (c : Children) (h : c.startHouse < HOUSES) :
    (selectHouse hs c).1 < HOUSES := by
  rcases selectHouse_cases hs c with (⟨h1, _⟩ | ⟨_, h1, _⟩) | ⟨_, h1⟩
  · exact h1
  · exact h1
  · rw [h1]; exact h

theorem selectHouse_le_twenty (hs : List House) (c : Children) :
    (selectHouse hs c).2 ≤ 20 := by
  rcases selectHouse_cases hs c with (⟨_, _, _, _, _, h1, _⟩ | ⟨_, _, _, _, _, h1, _⟩) | ⟨_, h1⟩
  · omega
  · exact h1
  · rw [h1]

/-! ## C9: `distance` and the Manhattan distance -/

/-- C9 (as amended): for `unsigned int` coordinates whose Manhattan distance
`|x1-x2| + |y1-y2|` is at most `INT_MAX`, `distance(x1, x2, y1, y2)` returns
that Manhattan distance. -/
theorem distance_returns_manhattan (x1 x2 y1 y2 : Nat)
    (hx1 : x1 < UINT_MOD) (hx2 : x2 < UINT_MOD) (hy1 : y1 < UINT_MOD) (hy2 : y2 < UINT_MOD)
    (h : manhattan x1 x2 y1 y2 < INT_LIM) :
    distance x1 x2 y1 y2 = manhattan x1 x2 y1 y2 :=
  distance_eq_manhattan x1 x2 y1 y2 hx1 hx2 hy1 hy2 h

/-- Witness for C9 at the points (3,10) and (7,2). -/
theorem distance_returns_manhattan_witness :
    distance 3 7 10 2 = manhattan 3 7 10 2 ∧ manhattan 3 7 10 2 = 12 :=
  ⟨distance_returns_manhattan 3 7 10 2 (by decide) (by decide) (by decide) (by decide)
    (by decide), by decide⟩

/-- C9 fails as stated: the coordinates 0 and 3000000000 are `unsigned int`
values, their Manhattan distance is 3000000000, and `distance` returns
1294967296. -/
theorem distance_wraps :
    (0 < UINT_MOD ∧ 3000000000 < UINT_MOD) ∧
    manhattan 0 3000000000 0 0 = 3000000000 ∧
    distance 0 3000000000 0 0 = 1294967296 ∧
    distance 0 3000000000 0 0 ≠ manhattan 0 3000000000 0 0 := by
  decide

/-! ## C4: selection of the nearest house with enough candy -/

/-- C4 (as amended): with house coordinates below `2^30`, if some house
other than the current house and the start house holds at least `size`
candy and lies at Manhattan distance less than 20 from the current house,
then the selection sets `destinationHouse` to such a house of smallest
Manhattan distance, the lowest index among those at that distance. -/
theorem select_nearest_sufficient (hs : List House) (c : Children)
    (hcoord : coordsBelow hs 1073741824) (j : Nat) (hj : j < HOUSES)
    (hjc : c.currentHouse ≠ j) (hjs : c.startHouse ≠ j)
    (hjsuff : c.size ≤ (houseAt hs j).candy) (hjnear : manhattanTo hs c j < 20) :
    (selectStep hs c).destinationHouse < HOUSES ∧
    c.currentHouse ≠ (selectStep hs c).destinationHouse ∧
    c.startHouse ≠ (selectStep hs c).destinationHouse ∧
    c.size ≤ (houseAt hs (selectStep hs c).destinationHouse).candy ∧
    ∀ i, i < HOUSES → c.currentHouse ≠ i → c.startHouse ≠ i →
      c.size ≤ (houseAt hs i).candy →
      manhattanTo hs c (selectStep hs c).destinationHouse ≤ manhattanTo hs c i ∧
      (manhattanTo hs c i = manhattanTo hs c (selectStep hs c).destinationHouse →
        (selectStep hs c).destinationHouse ≤ i) := by
  have hd : ∀ i, distTo hs c i = manhattanTo hs c i := distTo_eq_manhattanTo hs c hcoord
  rw [selectStep_destinationHouse]
  rcases selectHouse_cases hs c with (⟨h1, e1, e2, hsuf, hk, hmd, hall⟩ | ⟨hnone, _⟩) | ⟨hnone, _⟩
  · refine ⟨h1, e1, e2, hsuf, ?_⟩
    intro i hi hic his hisuff
    have := hall i hi hic his hisuff
    rw [hk, hd, hd] at this
    omega
  · have := hnone j hj hjc hjs hjsuff
    rw [hd] at this; omega
  · have := hnone j hj hjc hjs
    rw [hd] at this; omega

/-- Witness for C4: the example of the specification, house 2 is chosen. -/
theorem select_nearest_sufficient_witness :
    (selectStep lineHouses (groupAtZero 5)).destinationHouse = 2 ∧
    (selectStep lineHouses (groupAtZero 5)).destinationHouse < HOUSES ∧
    5 ≤ (houseAt lineHouses (selectStep lineHouses (groupAtZero 5)).destinationHouse).candy :=
  have h := select_nearest_sufficient lineHouses (groupAtZero 5)
    (by unfold coordsBelow; decide) 2 (by decide) (by decide) (by decide) (by decide) (by decide)
  ⟨by decide, h.1, h.2.2.2.1⟩

/-- C4 fails as stated: in `wrapHouses` all coordinates are `unsigned int`
values, houses 1 and 2 both hold enough candy for a group of size 5 standing
at its start house 0, house 2 is the nearest of them (Manhattan distance 2,
house 1 is at 4294967295), and the selection sends the group to house 1,
whose distance the 32-bit subtraction reads as 1. -/
theorem select_wrapped_distance :
    (∀ h ∈ wrapHouses, h.cordX < UINT_MOD ∧ h.cordY < UINT_MOD) ∧
    (2 < HOUSES ∧ (groupAtZero 5).currentHouse ≠ 2 ∧ (groupAtZero 5).startHouse ≠ 2 ∧
      (groupAtZero 5).size ≤ (houseAt wrapHouses 2).candy) ∧
    manhattanTo wrapHouses (groupAtZero 5) 2 = 2 ∧
    manhattanTo wrapHouses (groupAtZero 5) 1 = 4294967295 ∧
    (∀ i, i < HOUSES → (groupAtZero 5).currentHouse ≠ i → (groupAtZero 5).startHouse ≠ i →
      (groupAtZero 5).size ≤ (houseAt wrapHouses i).candy →
      2 ≤ manhattanTo wrapHouses (groupAtZero 5) i) ∧
    distTo wrapHouses (groupAtZero 5) 1 = 1 ∧
    (selectStep wrapHouses (groupAtZero 5)).destinationHouse = 1 ∧
    (selectStep wrapHouses (groupAtZero 5)).destinationHouse ≠ 2 := by
  decide

/-- The sentinel case of the selection, left out of the statements above: in
`farHouses` every house other than house 0 holds 20 candy, enough for a
group of size 5 standing at its start house 0, but all are at distance 30,
and the selection leaves `destinationHouse` at the start house 0, the house
the comment of line 108 says the group does not visit. -/
theorem select_far_keeps_start :
    (∀ i, i < HOUSES → (groupAtZero 5).currentHouse ≠ i → (groupAtZero 5).startHouse ≠ i →
      (groupAtZero 5).size ≤ (houseAt farHouses i).candy) ∧
    (1 < HOUSES ∧ (groupAtZero 5).currentHouse ≠ 1 ∧ (groupAtZero 5).startHouse ≠ 1) ∧
    manhattanTo farHouses (groupAtZero 5) 1 = 30 ∧
    (selectStep farHouses (groupAtZero 5)).destinationHouse = (groupAtZero 5).startHouse ∧
    (selectStep farHouses (groupAtZero 5)).destinationHouse ≠ 1 := by
  decide

/-! ## C5: the fallback selection -/

/-- C5 (as amended): with house coordinates below `2^30`, if every house
other than the current house and the start house holds less than `size`
candy and one of them lies at Manhattan distance at most 20 from the current
house, then the selection sets `destinationHouse` to such a house of
smallest Manhattan distance whatever its candy, the highest index among
those at that distance. -/
theorem fallback_nearest (hs : List House) (c : Children)
    (hcoord : coordsBelow hs 1073741824)
    (hlow : ∀ i, i < HOUSES → c.currentHouse ≠ i → c.startHouse ≠ i →
      (houseAt hs i).candy < c.size)
    (j : Nat) (hj : j < HOUSES) (hjc : c.currentHouse ≠ j) (hjs : c.startHouse ≠ j)
    (hjnear : manhattanTo hs c j ≤ 20) :
    (selectStep hs c).destinationHouse < HOUSES ∧
    c.currentHouse ≠ (selectStep hs c).destinationHouse ∧
    c.startHouse ≠ (selectStep hs c).destinationHouse ∧
    ∀ i, i < HOUSES → c.currentHouse ≠ i → c.startHouse ≠ i →
      manhattanTo hs c (selectStep hs c).destinationHouse ≤ manhattanTo hs c i ∧
      (manhattanTo hs c i = manhattanTo hs c (selectStep hs c).destinationHouse →
        i ≤ (selectStep hs c).destinationHouse) := by
  have hd : ∀ i, distTo hs c i = manhattanTo hs c i := distTo_eq_manhattanTo hs c hcoord
  rw [selectStep_destinationHouse]
  rcases selectHouse_cases hs c with
    (⟨h1, e1, e2, hsuf, _⟩ | ⟨_, h1, e1, e2, hk, hmd, hall⟩) | ⟨hnone, _⟩
  · have := hlow _ h1 e1 e2
    omega
  · refine ⟨h1, e1, e2, ?_⟩
    intro i hi hic his
    have := hall i hi hic his
    rw [hk, hd, hd] at this
    omega
  · have := hnone j hj hjc hjs
    rw [hd] at this; omega

/-- Witness for C5 on `tieHouses`. -/
theorem fallback_nearest_witness :
    (selectStep tieHouses (groupAtZero 5)).destinationHouse = 2 ∧
    (selectStep tieHouses (groupAtZero 5)).destinationHouse < HOUSES ∧
    manhattanTo tieHouses (groupAtZero 5) (selectStep tieHouses (groupAtZero 5)).destinationHouse
      ≤ manhattanTo tieHouses (groupAtZero 5) 1 :=
  have h := fallback_nearest tieHouses (groupAtZero 5)
    (by unfold coordsBelow; decide) (by decide) 1 (by decide) (by decide) (by decide) (by decide)
  ⟨by decide, h.1, (h.2.2.2 1 (by decide) (by decide) (by decide)).1⟩

/-- C5 fails as stated: in `tieHouses` every house other than house 0 is
empty, houses 1 and 2 are both at the smallest Manhattan distance 1 from
house 0, and a group of size 5 standing at its start house 0 is sent to
house 2, not to the lowest index 1. -/
theorem fallback_tie_takes_last :
    (∀ i, i < HOUSES → (groupAtZero 5).currentHouse ≠ i → (groupAtZero 5).startHouse ≠ i →
      (houseAt tieHouses i).candy < (groupAtZero 5).size ∧
      1 ≤ manhattanTo tieHouses (groupAtZero 5) i) ∧
    manhattanTo tieHouses (groupAtZero 5) 1 = 1 ∧
    manhattanTo tieHouses (groupAtZero 5) 2 = 1 ∧
    (selectStep tieHouses (groupAtZero 5)).destinationHouse = 2 ∧
    (selectStep tieHouses (groupAtZero 5)).destinationHouse ≠ 1 := by
  decide

/-! ## C6: the travel time -/

/-- C6 (as amended): with house coordinates below `2^30`, if some house
other than the current house and the start house lies at Manhattan distance
at most 20 from the current house, the travel time stored by the selection
is exactly 250 times the Manhattan distance between the current house and
the chosen destination. -/
theorem travel_time_exact (hs : List House) (c : Children)
    (hcoord : coordsBelow hs 1073741824)
    (j : Nat) (hj : j < HOUSES) (hjc : c.currentHouse ≠ j) (hjs : c.startHouse ≠ j)
    (hjnear : manhattanTo hs c j ≤ 20) :
    (selectStep hs c).time = 250 * manhattanTo hs c (selectStep hs c).destinationHouse := by
  have hd : ∀ i, distTo hs c i = manhattanTo hs c i := distTo_eq_manhattanTo hs c hcoord
  rw [selectStep_destinationHouse, selectStep_time]
  have hle := selectHouse_le_twenty hs c
  have hk : (selectHouse hs c).2 = manhattanTo hs c (selectHouse hs c).1 := by
    rcases selectHouse_cases hs c with
      (⟨_, _, _, _, hk, _⟩ | ⟨_, _, _, _, hk, _⟩) | ⟨hnone, _⟩
    · rw [hk, hd]
    · rw [hk, hd]
    · have := hnone j hj hjc hjs
      rw [hd] at this; omega
  rw [← hk]
  simp only [umul, UINT_MOD]
  omega

/-- Witness for C6 on `lineHouses`: distance 2, 500 ms. -/
theorem travel_time_exact_witness :
    (selectStep lineHouses (groupAtZero 5)).time = 500 ∧
    (selectStep lineHouses (groupAtZero 5)).time =
      250 * manhattanTo lineHouses (groupAtZero 5)
        (selectStep lineHouses (groupAtZero 5)).destinationHouse :=
  ⟨by decide, travel_time_exact lineHouses (groupAtZero 5)
    (by unfold coordsBelow; decide) 1 (by decide) (by decide) (by decide) (by decide)⟩

/-- C6 fails as stated: in `wrapHouses` a group of size 5 standing at its
start house 0 is sent to house 1, at Manhattan distance 4294967295, and the
stored travel time is 250 ms: the 32-bit subtraction reads the distance
as 1. -/
theorem travel_time_wrapped :
    (∀ h ∈ wrapHouses, h.cordX < UINT_MOD ∧ h.cordY < UINT_MOD) ∧
    (selectStep wrapHouses (groupAtZero 5)).destinationHouse = 1 ∧
    manhattanTo wrapHouses (groupAtZero 5)
      (selectStep wrapHouses (groupAtZero 5)).destinationHouse = 4294967295 ∧
    (selectStep wrapHouses (groupAtZero 5)).time = 250 ∧
    (selectStep wrapHouses (groupAtZero 5)).time ≠
      250 * manhattanTo wrapHouses (groupAtZero 5)
        (selectStep wrapHouses (groupAtZero 5)).destinationHouse := by
  decide

/-- The sentinel case of the travel time, left out of the statement above:
in `farHouses` a group standing at its start house 0 keeps house 0 as
destination, at Manhattan distance 0, and the stored travel time is
5000 ms. -/
theorem travel_time_far :
    (selectStep farHouses (groupAtZero 5)).destinationHouse = 0 ∧
    manhattanTo farHouses (groupAtZero 5)
      (selectStep farHouses (groupAtZero 5)).destinationHouse = 0 ∧
    (selectStep farHouses (groupAtZero 5)).time = 5000 ∧
    (selectStep farHouses (groupAtZero 5)).time ≠
      250 * manhattanTo farHouses (groupAtZero 5)
        (selectStep farHouses (groupAtZero 5)).destinationHouse := by
  decide

/-! ## C10: the indices used by the loop -/

theorem collectStep_currentHouse (hs : List House) (c : Children) (k : Nat) :
    (collectStep hs c k).2.currentHouse = k := by
  simp only [collectStep]
  split_ifs <;> rfl

theorem collectStep_fields (hs : List House) (c : Children) (k : Nat) :
    (collectStep hs c k).2.destinationHouse = c.destinationHouse ∧
    (collectStep hs c k).2.startHouse = c.startHouse ∧
    (collectStep hs c k).2.size = c.size ∧
    (collectStep hs c k).2.time = c.time ∧
    (collectStep hs c k).2.uniqueId = c.uniqueId := by
  simp only [collectStep]
  split_ifs <;> exact ⟨rfl, rfl, rfl, rfl, rfl⟩

theorem loopBody_indices (seen hs : List House) (c : Children) :
    (loopBody seen hs c).2.currentHouse = (selectHouse seen c).1 ∧
    (loopBody seen hs c).2.destinationHouse = (selectHouse seen c).1 ∧
    (loopBody seen hs c).2.startHouse = c.startHouse := by
  unfold loopBody
  refine ⟨collectStep_currentHouse _ _ _, ?_, ?_⟩
  · rw [(collectStep_fields _ _ _).1, selectStep_destinationHouse]
  · rw [(collectStep_fields _ _ _).2.1]; rfl

theorem agentRun_append (c : Children) (vs : List (List House × List House))
    (v : List House × List House) :
    agentRun c (vs ++ [v]) = (loopBody v.1 v.2 (agentRun c vs)).2 := by
  simp [agentRun, List.foldl_append]

theorem agentRun_inv (c : Children) (h : c.startHouse < HOUSES)
    (views : List (List House × List House)) :
    (agentRun (getTreatInit c) views).startHouse = c.startHouse ∧
    (agentRun (getTreatInit c) views).currentHouse < HOUSES ∧
    (views ≠ [] → (agentRun (getTreatInit c) views).destinationHouse < HOUSES ∧
      (agentRun (getTreatInit c) views).destinationHouse =
        (agentRun (getTreatInit c) views).currentHouse) := by
  induction views using List.reverseRecOn with
  | nil => exact ⟨rfl, h, fun hne => absurd rfl hne⟩
  | append_singleton vs v ih =>
    rw [agentRun_append]
    obtain ⟨h1, h2, h3⟩ := loopBody_indices v.1 v.2 (agentRun (getTreatInit c) vs)
    have hlt : (selectHouse v.1 (agentRun (getTreatInit c) vs)).1 < HOUSES :=
      selectHouse_lt _ _ (by rw [ih.1]; exact h)
    refine ⟨by rw [h3, ih.1], by rw [h1]; exact hlt, fun _ => ⟨by rw [h2]; exact hlt, ?_⟩⟩
    rw [h1, h2]

/-- C10: for a group whose start house is below `HOUSES`, whatever the
houses hold and however their candy changes between and during iterations,
after any number of iterations of the loop `currentHouse` is below `HOUSES`,
the next selection chooses a house below `HOUSES`, and once an iteration has
run `destinationHouse` is below `HOUSES` too; so the cells `Houses[...]`
used by the loop (current house, loop index, destination) exist. -/
theorem loop_indices_in_bounds (c : Children) (h : c.startHouse < HOUSES)
    (views : List (List House × List House)) :
    (agentRun (getTreatInit c) views).currentHouse < HOUSES ∧
    (views ≠ [] → (agentRun (getTreatInit c) views).destinationHouse < HOUSES) ∧
    ∀ seen : List House,
      (selectStep seen (agentRun (getTreatInit c) views)).destinationHouse < HOUSES := by
  obtain ⟨h1, h2, h3⟩ := agentRun_inv c h views
  refine ⟨h2, fun hne => (h3 hne).1, fun seen => ?_⟩
  rw [selectStep_destinationHouse]
  exact selectHouse_lt _ _ (by rw [h1]; exact h)

/-- Witness for C10 after two iterations. -/
theorem loop_indices_in_bounds_witness :
    (agentRun (getTreatInit (groupAtZero 5))
      [(lineHouses, lineHouses), (tieHouses, farHouses)]).currentHouse < HOUSES ∧
    (agentRun (getTreatInit (groupAtZero 5))
      [(lineHouses, lineHouses), (tieHouses, farHouses)]).destinationHouse < HOUSES :=
  have h := loop_indices_in_bounds (groupAtZero 5) (by decide)
    [(lineHouses, lineHouses), (tieHouses, farHouses)]
  ⟨h.1, h.2.1 (by decide)⟩

/-! ## The locked transfer -/

theorem houseAt_eq_getElem (hs : List House) (i : Nat) (h : i < hs.length) :
    houseAt hs i = hs[i] := by
  unfold houseAt
  exact List.getD_eq_getElem hs _ h

theorem houseAt_set_same (hs : List House) (d : Nat) (x : House) (h : d < hs.length) :
    houseAt (hs.set d x) d = x := by
  unfold houseAt
  rw [List.getD_eq_getElem _ _ (by rw [List.length_set]; exact h)]
  simp

theorem houseAt_set_other (hs : List House) (d j : Nat) (x : House) (h : j ≠ d) :
    houseAt (hs.set d x) j = houseAt hs j := by
  unfold houseAt
  simp only [List.getD_eq_getElem?_getD]
  rw [List.getElem?_set_ne (Ne.symm h)]

theorem taken_eq_min (hs : List House) (c : Children) :
    taken hs c = min c.size (houseAt hs c.destinationHouse).candy := by
  unfold taken
  split_ifs with h
  · exact (Nat.min_eq_right (Nat.le_of_lt h)).symm
  · exact (Nat.min_eq_left (Nat.le_of_not_lt h)).symm

theorem collectStep_candy (hs : List House) (c : Children) (k : Nat) :
    (collectStep hs c k).2.candy = uadd c.candy (taken hs c) := by
  simp only [collectStep, taken]
  split_ifs <;> rfl

theorem collectStep_length (hs : List House) (c : Children) (k : Nat) :
    (collectStep hs c k).1.length = hs.length := by
  simp only [collectStep]
  split_ifs <;> simp

theorem collectStep_houses (hs : List House) (c : Children) (k : Nat) :
    ∃ x : House, (collectStep hs c k).1 = hs.set c.destinationHouse x ∧
      x.cordX = (houseAt hs c.destinationHouse).cordX ∧
      x.cordY = (houseAt hs c.destinationHouse).cordY ∧
      ((houseAt hs c.destinationHouse).candy < UINT_MOD →
        x.candy + taken hs c = (houseAt hs c.destinationHouse).candy) := by
  simp only [collectStep, taken]
  split_ifs with h
  · exact ⟨_, rfl, rfl, rfl, fun _ => by simp⟩
  · refine ⟨_, rfl, rfl, rfl, fun hlt => ?_⟩
    simp only [usub, UINT_MOD] at hlt ⊢
    omega

theorem collectStep_other (hs : List House) (c : Children) (k j : Nat)
    (h : j ≠ c.destinationHouse) :
    houseAt (collectStep hs c k).1 j = houseAt hs j := by
  obtain ⟨x, hx, _⟩ := collectStep_houses hs c k
  rw [hx, houseAt_set_other _ _ _ _ h]

theorem collectStep_same (hs : List House) (c : Children) (k : Nat)
    (hd : c.destinationHouse < hs.length)
    (hc : (houseAt hs c.destinationHouse).candy < UINT_MOD) :
    (houseAt (collectStep hs c k).1 c.destinationHouse).candy + taken hs c =
      (houseAt hs c.destinationHouse).candy ∧
    (houseAt (collectStep hs c k).1 c.destinationHouse).cordX =
      (houseAt hs c.destinationHouse).cordX ∧
    (houseAt (collectStep hs c k).1 c.destinationHouse).cordY =
      (houseAt hs c.destinationHouse).cordY := by
  obtain ⟨x, hx, h1, h2, h3⟩ := collectStep_houses hs c k
  rw [hx, houseAt_set_same _ _ _ hd]
  exact ⟨h3 hc, h1, h2⟩

theorem houseAt_candy_lt (hs : List House) (hc : ∀ h ∈ hs, h.candy < UINT_MOD) (i : Nat) :
    (houseAt hs i).candy < UINT_MOD := by
  unfold houseAt
  by_cases hi : i < hs.length
  · rw [List.getD_eq_getElem hs _ hi]
    exact hc _ (List.getElem_mem hi)
  · rw [List.getD_eq_default hs _ (by omega)]
    simp [UINT_MOD]

/-! ## C1: the COLLECT step -/

/-- C1 (as amended): one loop body of a group with start house below
`HOUSES`, on ten houses of `unsigned int` candy. With `d` the destination
chosen by the selection and `actual = min(size, Houses[d].candy)`: the candy
of house `d` becomes its old value minus `actual` with no wrap (new value
plus `actual` is the old value), the candy of the group becomes
`(candy + actual) mod 2^32`, which is `candy + actual` when that sum is
below `2^32`, `currentHouse` becomes `d` (as `destinationHouse`), every other
house is unchanged and the coordinates of house `d` are unchanged. -/
theorem collect_effect (seen hs : List House) (c : Children)
    (hlen : hs.length = HOUSES) (hstart : c.startHouse < HOUSES)
    (hcandy : ∀ h ∈ hs, h.candy < UINT_MOD) :
    (houseAt (loopBody seen hs c).1 (selectStep seen c).destinationHouse).candy +
        min c.size (houseAt hs (selectStep seen c).destinationHouse).candy =
      (houseAt hs (selectStep seen c).destinationHouse).candy ∧
    (loopBody seen hs c).2.candy =
      (c.candy + min c.size (houseAt hs (selectStep seen c).destinationHouse).candy)
        % UINT_MOD ∧
    (c.candy + min c.size (houseAt hs (selectStep seen c).destinationHouse).candy < UINT_MOD →
      (loopBody seen hs c).2.candy =
        c.candy + min c.size (houseAt hs (selectStep seen c).destinationHouse).candy) ∧
    (loopBody seen hs c).2.currentHouse = (selectStep seen c).destinationHouse ∧
    (loopBody seen hs c).2.destinationHouse = (selectStep seen c).destinationHouse ∧
    (∀ j, j ≠ (selectStep seen c).destinationHouse →
      houseAt (loopBody seen hs c).1 j = houseAt hs j) ∧
    (houseAt (loopBody seen hs c).1 (selectStep seen c).destinationHouse).cordX =
      (houseAt hs (selectStep seen c).destinationHouse).cordX ∧
    (houseAt (loopBody seen hs c).1 (selectStep seen c).destinationHouse).cordY =
      (houseAt hs (selectStep seen c).destinationHouse).cordY := by
  have hd : (selectStep seen c).destinationHouse < hs.length := by
    rw [hlen, selectStep_destinationHouse]; exact selectHouse_lt seen c hstart
  have hc := houseAt_candy_lt hs hcandy (selectStep seen c).destinationHouse
  have hsize : (selectStep seen c).size = c.size := rfl
  have hcan : (selectStep seen c).candy = c.candy := rfl
  have htk := taken_eq_min hs (selectStep seen c)
  rw [hsize] at htk
  obtain ⟨s1, s2, s3⟩ := collectStep_same hs (selectStep seen c) (selectHouse seen c).1 hd hc
  have hcandy2 := collectStep_candy hs (selectStep seen c) (selectHouse seen c).1
  rw [hcan, htk] at hcandy2
  rw [htk] at s1
  obtain ⟨i1, i2, _⟩ := loopBody_indices seen hs c
  refine ⟨s1, hcandy2, ?_, ?_, ?_, ?_, s2, s3⟩
  · intro hlt
    unfold loopBody
    rw [hcandy2]
    exact Nat.mod_eq_of_lt hlt
  · rw [i1, selectStep_destinationHouse]
  · rw [i2, selectStep_destinationHouse]
  · intro j hj
    exact collectStep_other hs (selectStep seen c) _ j hj

/-- Witness for C1: a group of 5 takes 5 of the 20 candy of house 2. -/
theorem collect_effect_witness :
    (loopBody lineHouses lineHouses (groupAtZero 5)).2.candy = 5 ∧
    (loopBody lineHouses lineHouses (groupAtZero 5)).2.currentHouse = 2 ∧
    (houseAt (loopBody lineHouses lineHouses (groupAtZero 5)).1 2).candy = 15 ∧
    (loopBody lineHouses lineHouses (groupAtZero 5)).2.currentHouse =
      (selectStep lineHouses (groupAtZero 5)).destinationHouse :=
  have h := collect_effect lineHouses lineHouses (groupAtZero 5) (by decide) (by decide)
    (by decide)
  ⟨by decide, by decide, by decide, h.2.2.2.1⟩

/-- C1 fails as stated: a group of size 4294967295 starts at house 0 of
`richHouses`. Its first loop body takes 4294967295 from house 1. Its second
loop body goes to house 2, which holds 4294967295, so `actual` is
4294967295, and the candy of the group becomes 4294967294: it does not grow
by `actual`. -/
theorem collect_total_wraps :
    (loopBody richHouses richHouses (getTreatInit (groupAtZero 4294967295))).2.candy
      = 4294967295 ∧
    (selectStep (loopBody richHouses richHouses (getTreatInit (groupAtZero 4294967295))).1
      (loopBody richHouses richHouses (getTreatInit (groupAtZero 4294967295))).2).destinationHouse
      = 2 ∧
    min (groupAtZero 4294967295).size
      (houseAt (loopBody richHouses richHouses (getTreatInit (groupAtZero 4294967295))).1 2).candy
      = 4294967295 ∧
    (loopBody (loopBody richHouses richHouses (getTreatInit (groupAtZero 4294967295))).1
      (loopBody richHouses richHouses (getTreatInit (groupAtZero 4294967295))).1
      (loopBody richHouses richHouses (getTreatInit (groupAtZero 4294967295))).2).2.candy
      = 4294967294 ∧
    4294967294 ≠ 4294967295 + 4294967295 := by
  decide

/-! ## C3: serialized takes never over-drain a house -/

theorem takesOn_sum (d : Nat) (cs : List Children) :
    ∀ hs : List House, d < hs.length → (houseAt hs d).candy < UINT_MOD →
      (houseAt (takesOn d hs cs).1 d).candy + (takesOn d hs cs).2.sum =
        (houseAt hs d).candy := by
  induction cs with
  | nil => intro hs _ _; simp [takesOn]
  | cons c cs ih =>
    intro hs hd hc
    simp only [takesOn, List.sum_cons]
    have hstep := (collectStep_same hs { c with destinationHouse := d } d hd hc).1
    simp only at hstep
    have hlen := collectStep_length hs { c with destinationHouse := d } d
    have := ih (collectStep hs { c with destinationHouse := d } d).1
      (by rw [hlen]; exact hd) (by omega)
    omega

/-- C3: groups take from one house `d` one after the other, each inside the
lock, with no refill in between. After every take (after the first `k` takes,
for every `k`) the candy of the house plus the sum of the amounts taken so
far is the initial candy: no take wraps the counter below zero, and the sum
of the amounts taken never exceeds the initial candy. -/
theorem takes_never_overdrain (hs : List House) (d : Nat) (cs : List Children)
    (hd : d < hs.length) (hc : (houseAt hs d).candy < UINT_MOD) (k : Nat) :
    (houseAt (takesOn d hs (cs.take k)).1 d).candy + (takesOn d hs (cs.take k)).2.sum =
      (houseAt hs d).candy ∧
    (takesOn d hs (cs.take k)).2.sum ≤ (houseAt hs d).candy ∧
    (takesOn d hs cs).2.sum ≤ (houseAt hs d).candy := by
  have h1 := takesOn_sum d (cs.take k) hs hd hc
  have h2 := takesOn_sum d cs hs hd hc
  exact ⟨h1, by omega, by omega⟩

/-- Witness for C3: three groups of 8 take 8, 8 and 4 from a house of 20. -/
theorem takes_never_overdrain_witness :
    (takesOn 2 lineHouses [groupAtZero 8, groupAtZero 8, groupAtZero 8]).2 = [8, 8, 4] ∧
    (houseAt (takesOn 2 lineHouses
        ([groupAtZero 8, groupAtZero 8, groupAtZero 8].take 3)).1 2).candy +
      (takesOn 2 lineHouses ([groupAtZero 8, groupAtZero 8, groupAtZero 8].take 3)).2.sum =
      (houseAt lineHouses 2).candy :=
  ⟨by decide, (takes_never_overdrain lineHouses 2
    [groupAtZero 8, groupAtZero 8, groupAtZero 8] (by decide) (by decide) 3).1⟩

/-! ## C2: conservation of candy -/

theorem sum_map_set {α : Type} (f : α → Nat) (l : List α) :
    ∀ (i : Nat) (x : α) (h : i < l.length),
      ((l.set i x).map f).sum + f (l.get ⟨i, h⟩) = (l.map f).sum + f x := by
  induction l with
  | nil => intro i x h; simp at h
  | cons a l ih =>
    intro i x h
    cases i with
    | zero => simp; omega
    | succ i =>
      have := ih i x (by simpa using h)
      simp only [List.set_cons_succ, List.map_cons, List.sum_cons, List.get_eq_getElem,
        List.getElem_cons_succ] at this ⊢
      omega

theorem le_sum_map {α : Type} (f : α → Nat) (l : List α) (i : Nat) (h : i < l.length) :
    f (l.get ⟨i, h⟩) ≤ (l.map f).sum := by
  exact List.single_le_sum (fun _ _ => Nat.zero_le _) _
    (List.mem_map_of_mem f (List.get_mem l i h))

theorem houseTotal_set (hs : List House) (d : Nat) (x : House) (h : d < hs.length) :
    houseTotal (hs.set d x) + (houseAt hs d).candy = houseTotal hs + x.candy := by
  rw [houseAt_eq_getElem hs d h]
  exact sum_map_set House.candy hs d x h

theorem houseAt_candy_le_total (hs : List House) (d : Nat) (h : d < hs.length) :
    (houseAt hs d).candy ≤ houseTotal hs := by
  rw [houseAt_eq_getElem hs d h]
  exact le_sum_map House.candy hs d h

theorem refillStep_inv (s : Sim) (total n amt : Nat) (hinv : SimInv s total)
    (hn : n < HOUSES) (hfit : total + amt < UINT_MOD) :
    SimInv (s.step (Action.refill n amt)) (total + amt) := by
  obtain ⟨hlen, hst, hsum⟩ := hinv
  have hn2 : n < s.houses.length := by rw [hlen]; exact hn
  refine ⟨?_, hst, ?_⟩
  · simp [Sim.step, refillStep, hlen]
  · have h1 := houseTotal_set s.houses n
      { houseAt s.houses n with candy := uadd (houseAt s.houses n).candy amt } hn2
    have h2 := houseAt_candy_le_total s.houses n hn2
    have h3 : uadd (houseAt s.houses n).candy amt = (houseAt s.houses n).candy + amt := by
      unfold uadd
      apply Nat.mod_eq_of_lt
      omega
    simp only [Sim.step, refillStep]
    simp only [h3] at h1 ⊢
    omega

theorem collect_inv (s : Sim) (total a : Nat) (seen : List House) (hinv : SimInv s total)
    (hfit : total < UINT_MOD) :
    SimInv (s.step (Action.collect a seen)) total := by
  obtain ⟨hlen, hst, hsum⟩ := hinv
  simp only [Sim.step]
  cases hget : s.agents[a]? with
  | none => exact ⟨hlen, hst, hsum⟩
  | some c =>
    simp only
    obtain ⟨ha, hca⟩ := List.getElem?_eq_some_iff.mp hget
    have hcmem : c ∈ s.agents := hca ▸ List.getElem_mem ha
    have hd : (selectStep seen c).destinationHouse < s.houses.length := by
      rw [hlen, selectStep_destinationHouse]; exact selectHouse_lt seen c (hst c hcmem)
    have hle := houseAt_candy_le_total s.houses _ hd
    have hc : (houseAt s.houses (selectStep seen c).destinationHouse).candy < UINT_MOD := by
      omega
    obtain ⟨x, hx, _, _, hx3⟩ := collectStep_houses s.houses (selectStep seen c)
      (selectHouse seen c).1
    have hx3 := hx3 hc
    have hcandy := collectStep_candy s.houses (selectStep seen c) (selectHouse seen c).1
    have hcan : (selectStep seen c).candy = c.candy := rfl
    rw [hcan] at hcandy
    have hcle : c.candy ≤ agentTotal s.agents := by
      have := le_sum_map Children.candy s.agents a ha
      rw [List.get_eq_getElem, hca] at this
      exact this
    have hnowrap : uadd c.candy (taken s.houses (selectStep seen c)) =
        c.candy + taken s.houses (selectStep seen c) := by
      unfold uadd
      apply Nat.mod_eq_of_lt
      omega
    rw [hnowrap] at hcandy
    have hA := sum_map_set Children.candy s.agents a
      (loopBody seen s.houses c).2 ha
    rw [List.get_eq_getElem, hca] at hA
    have hH := houseTotal_set s.houses (selectStep seen c).destinationHouse x hd
    refine ⟨?_, ?_, ?_⟩
    · unfold loopBody; rw [collectStep_length]; exact hlen
    · intro c2 hc2
      rcases List.mem_or_eq_of_mem_set hc2 with h | h
      · exact hst c2 h
      · rw [h, (loopBody_indices seen s.houses c).2.2]; exact hst c hcmem
    · have e1 : (loopBody seen s.houses c).1 =
          s.houses.set (selectStep seen c).destinationHouse x := hx
      have e2 : (loopBody seen s.houses c).2.candy =
          c.candy + taken s.houses (selectStep seen c) := hcandy
      show houseTotal (loopBody seen s.houses c).1 +
        agentTotal (s.agents.set a (loopBody seen s.houses c).2) = total
      rw [e1]
      unfold agentTotal at hsum hcle ⊢
      omega

theorem run_inv (acts : List Action) :
    ∀ (s : Sim) (total : Nat), SimInv s total →
      (∀ a ∈ acts, a.inRange s.agents.length) →
      total + refillTotal acts < UINT_MOD →
      SimInv (s.run acts) (total + refillTotal acts) := by
  induction acts with
  | nil => intro s total hinv _ _; simpa [Sim.run, refillTotal] using hinv
  | cons a acts ih =>
    intro s total hinv hr hfit
    have hlenAgents : ∀ (b : Action), (s.step b).agents.length = s.agents.length := by
      intro b
      cases b with
      | collect i seen =>
        simp only [Sim.step]
        cases s.agents[i]? <;> simp
      | refill n amt => rfl
    cases a with
    | collect i seen =>
      have h1 := collect_inv s total i seen hinv (by simp only [refillTotal] at hfit; omega)
      have := ih (s.step (Action.collect i seen)) total h1
        (fun b hb => by rw [hlenAgents]; exact hr b (List.mem_cons_of_mem _ hb))
        (by simpa [refillTotal] using hfit)
      simpa [Sim.run, refillTotal] using this
    | refill n amt =>
      have hn : n < HOUSES := hr (Action.refill n amt) (List.mem_cons_self _ _)
      simp only [refillTotal] at hfit
      have h1 := refillStep_inv s total n amt hinv hn (by omega)
      have := ih (s.step (Action.refill n amt)) (total + amt) h1
        (fun b hb => by rw [hlenAgents]; exact hr b (List.mem_cons_of_mem _ hb))
        (by omega)
      simp only [Sim.run, List.foldl_cons, refillTotal] at this ⊢
      rw [← Nat.add_assoc]
      exact this

theorem agentTotal_zero (cs : List Children) (h : ∀ c ∈ cs, c.candy = 0) :
    agentTotal cs = 0 := by
  induction cs with
  | nil => rfl
  | cons c cs ih =>
    have h1 := h c (List.mem_cons_self _ _)
    have h2 := ih (fun c2 hc2 => h c2 (List.mem_cons_of_mem _ hc2))
    unfold agentTotal at h2 ⊢
    simp only [List.map_cons, List.sum_cons]
    omega

/-- C2 (as amended): start from ten houses and groups that have collected
nothing, with start houses below `HOUSES`, and run any finite sequence of
locked loop bodies (any group, any view of the houses for its selection) and
refills of existing houses. If the initial candy of the houses plus all
refill amounts is below `2^32`, then the candy of all houses plus the candy
of all groups equals the initial candy of the houses plus the refill amounts
applied. -/
theorem conservation (s0 : Sim) (acts : List Action)
    (hlen : s0.houses.length = HOUSES)
    (hstart : ∀ c ∈ s0.agents, c.startHouse < HOUSES)
    (hzero : ∀ c ∈ s0.agents, c.candy = 0)
    (hacts : ∀ a ∈ acts, a.inRange s0.agents.length)
    (hfit : houseTotal s0.houses + refillTotal acts < UINT_MOD) :
    houseTotal (s0.run acts).houses + agentTotal (s0.run acts).agents =
      houseTotal s0.houses + refillTotal acts := by
  have h0 : SimInv s0 (houseTotal s0.houses) :=
    ⟨hlen, hstart, by rw [agentTotal_zero _ hzero]; rfl⟩
  exact (run_inv acts s0 _ h0 hacts hfit).2.2

/-- Witness for C2: three loop bodies and one refill of 7. -/
theorem conservation_witness :
    houseTotal (twoGroups.run [Action.collect 0 lineHouses, Action.refill 1 7,
        Action.collect 1 lineHouses, Action.collect 0 lineHouses]).houses +
      agentTotal (twoGroups.run [Action.collect 0 lineHouses, Action.refill 1 7,
        Action.collect 1 lineHouses, Action.collect 0 lineHouses]).agents = 33 + 7 :=
  conservation twoGroups [Action.collect 0 lineHouses, Action.refill 1 7,
    Action.collect 1 lineHouses, Action.collect 0 lineHouses]
    (by decide) (by decide) (by decide) (by decide) (by decide)

/-- C2 fails as stated: the houses of `richHouses` hold 8589934590 candy in
all and there is no refill. After two loop bodies of a group of size
4294967295 the houses are empty and the group holds 4294967294. -/
theorem conservation_wraps :
    houseTotal greedyGroup.houses = 8589934590 ∧
    refillTotal [Action.collect 0 richHouses, Action.collect 0 richHouses] = 0 ∧
    houseTotal (greedyGroup.run
      [Action.collect 0 richHouses, Action.collect 0 richHouses]).houses = 0 ∧
    agentTotal (greedyGroup.run
      [Action.collect 0 richHouses, Action.collect 0 richHouses]).agents = 4294967294 ∧
    houseTotal (greedyGroup.run
        [Action.collect 0 richHouses, Action.collect 0 richHouses]).houses +
      agentTotal (greedyGroup.run
        [Action.collect 0 richHouses, Action.collect 0 richHouses]).agents ≠
      houseTotal greedyGroup.houses +
        refillTotal [Action.collect 0 richHouses, Action.collect 0 richHouses] := by
  decide

/-! ## C7: the stop check -/

/-- C7, the code at the failing schedule: with two group threads, after the
coordinator has unlocked `lock`, thread 1 evaluates `quit` at its loop head
while thread 0 holds `lock` inside its own `quit`; `quit` returns 0, thread 1
enters the body again and completes two loop bodies after the stop signal.
Both threads end exited. -/
theorem stop_check_race :
    ((World.start 2).run (raceSchedule.take 5)).stopped = true ∧
    ((World.start 2).run (raceSchedule.take 4)).threads[1]? = some ⟨Pc.loopHead, 0, 1⟩ ∧
    ((World.start 2).run (raceSchedule.take 5)).threads[1]? = some ⟨Pc.inBody, 1, 1⟩ ∧
    ((World.start 2).run raceSchedule).threads = [⟨Pc.exited, 0, 0⟩, ⟨Pc.exited, 1, 2⟩] := by
  decide

/-! ## C8: the reporting loop -/

theorem reportLoop_from (k : Nat) :
    ∀ (i fuel : Nat), 1 ≤ i → i + k < 2147483647 → k + 2 ≤ fuel →
      reportLoop ((i + k : Nat) : Int) fuel (i : Int) =
        some (Event.sleep :: periodicFrom i k) := by
  induction k with
  | zero =>
    intro i fuel hi hlt hfuel
    obtain ⟨f, rfl⟩ : ∃ f, fuel = f + 2 := ⟨fuel - 2, by omega⟩
    have hne : (i : Int) ≠ 0 := by omega
    have hsucc : intSucc (i : Int) = some ((i : Int) + 1) := by
      unfold intSucc; rw [if_pos (by omega)]
    simp only [Nat.add_zero, reportLoop, le_refl, if_true, hsucc, Option.some_bind, ne_eq, hne,
      not_false_eq_true, not_true_eq_false, if_false, periodicFrom]
    rw [if_neg (by omega)]
    rfl
  | succ k ih =>
    intro i fuel hi hlt hfuel
    obtain ⟨f, rfl⟩ : ∃ f, fuel = f + 1 := ⟨fuel - 1, by omega⟩
    have hne : (i : Int) ≠ 0 := by omega
    have hle : (i : Int) ≤ ((i + (k + 1) : Nat) : Int) := by omega
    have hnd : (i : Int) ≠ ((i + (k + 1) : Nat) : Int) := by omega
    have hsucc : intSucc (i : Int) = some ((i + 1 : Nat) : Int) := by
      unfold intSucc; rw [if_pos (by omega)]; rfl
    have hrec := ih (i + 1) f (by omega) (by omega) (by omega)
    have hidx : i + 1 + k = i + (k + 1) := by omega
    rw [hidx] at hrec
    simp only [reportLoop, hle, if_true, hsucc, Option.some_bind, ne_eq, hne, hnd,
      not_false_eq_true, hrec, Option.map_some', periodicFrom]
    rfl

theorem reportLoop_zero (d fuel : Nat) (hd : d < 2147483647) (hfuel : d + 2 ≤ fuel) :
    reportLoop (d : Int) fuel 0 = some (periodicFrom 0 d) := by
  obtain ⟨f, rfl⟩ : ∃ f, fuel = f + 1 := ⟨fuel - 1, by omega⟩
  have hsucc : intSucc 0 = some ((1 : Nat) : Int) := by decide
  cases d with
  | zero =>
    obtain ⟨g, rfl⟩ : ∃ g, f = g + 1 := ⟨f - 1, by omega⟩
    simp [reportLoop, hsucc, periodicFrom]
  | succ d =>
    have hrec := reportLoop_from d 1 f (le_refl 1) (by omega) (by omega)
    have hidx : 1 + d = d + 1 := by omega
    rw [hidx] at hrec
    have hle : (0 : Int) ≤ ((d + 1 : Nat) : Int) := by omega
    have hnd : (0 : Int) ≠ ((d + 1 : Nat) : Int) := by omega
    simp only [reportLoop, hle, if_true, hsucc, Option.some_bind, ne_eq, hnd,
      not_false_eq_true, not_true_eq_false, if_false, hrec, Option.map_some', periodicFrom]
    rfl

theorem reportLabels_periodicFrom (k : Nat) :
    ∀ (i : Nat) (rest : List Event),
      reportLabels (periodicFrom i k ++ rest) =
        (List.range' i k).map Int.ofNat ++ reportLabels rest := by
  induction k with
  | zero => intro i rest; simp [periodicFrom]
  | succ k ih =>
    intro i rest
    have h := ih (i + 1) rest
    show (i : Int) :: reportLabels (periodicFrom (i + 1) k ++ rest) = _
    rw [h, List.range'_succ, List.map_cons]
    rfl

/-- C8 (as amended): for a duration `d` with `0 ≤ d < INT_MAX` the reporting code of
`main` terminates (any fuel of at least `d + 2` loop tests is enough) and its
trace is: `d` periodic snapshots labelled `0, ..., d - 1` in increasing order,
the first with no sleep before it and each later one right after exactly one
`sleep(1)`; one more `sleep(1)` when `d > 0`; then the unlock of `lock`; then
one final report labelled `d`. The reports are labelled `0, 1, ..., d`, so
there are `d + 1` of them. -/
theorem report_trace (d fuel : Nat) (hd : d < 2147483647) (hfuel : d + 2 ≤ fuel) :
    mainReport (d : Int) fuel =
      some (periodicFrom 0 d ++ [Event.stop, Event.final (d : Int)]) ∧
    reportLabels (periodicFrom 0 d ++ [Event.stop, Event.final (d : Int)]) =
      (List.range (d + 1)).map Int.ofNat ∧
    (reportLabels (periodicFrom 0 d ++ [Event.stop, Event.final (d : Int)])).length = d + 1 := by
  have h1 : mainReport (d : Int) fuel =
      some (periodicFrom 0 d ++ [Event.stop, Event.final (d : Int)]) := by
    unfold mainReport
    rw [reportLoop_zero d fuel hd hfuel]
    rfl
  have h2 : reportLabels (periodicFrom 0 d ++ [Event.stop, Event.final (d : Int)]) =
      (List.range (d + 1)).map Int.ofNat := by
    rw [reportLabels_periodicFrom, List.range_succ, List.map_append, List.range_eq_range']
    rfl
  refine ⟨h1, h2, ?_⟩
  rw [h2]
  simp

/-- Witness for C8 at duration 3. -/
theorem report_trace_witness :
    mainReport 3 5 =
      some [Event.snapshot 0, Event.sleep, Event.snapshot 1, Event.sleep, Event.snapshot 2,
        Event.sleep, Event.stop, Event.final 3] :=
  (report_trace 3 5 (by decide) (by decide)).1

theorem reportLoop_intmax (fuel : Nat) :
    ∀ i : Int, i ≤ 2147483647 → reportLoop 2147483647 fuel i = none := by
  induction fuel with
  | zero => intro i _; rfl
  | succ f ih =>
    intro i hle
    by_cases hs : i + 1 < 2147483648
    · have hrec := ih (i + 1) (by omega)
      simp only [reportLoop, hle, if_true, intSucc, hs, Option.some_bind, hrec,
        Option.map_none']
    · simp only [reportLoop, hle, if_true, intSucc, hs, if_false, Option.none_bind]

/-- C8 fails as stated: the duration 2147483647 (`INT_MAX`) is a non-negative
`int`, and for it the reporting code never reaches the unlock and the final
report: the test `i <= time` holds for every `int`, and the loop has no
defined continuation once `i++` overflows. Whatever the fuel, no trace is
produced. -/
theorem report_never_ends_at_intmax :
    (0 : Int) ≤ 2147483647 ∧ ∀ fuel : Nat, mainReport 2147483647 fuel = none := by
  refine ⟨by decide, fun fuel => ?_⟩
  unfold mainReport
  rw [reportLoop_intmax fuel 0 (by decide)]
  rfl

end PThreads
